import Mathlib

/-!
Verification of the keyword-matching chatbot engine (`chatbot_engine.py`).

The engine's text processing is modelled over `List Char` (Python `str`
values in the ASCII range; `str.lower` is modelled by `Char.toLower` and
the whitespace class of `str.split`/`str.strip` by `isPySpace`, both of
which agree with Python on ASCII text).  Python float literals `0.95` and
`0.3` are modelled exactly as the rational literals `0.95` and `0.3`.
-/

/-- Whitespace recognised by Python `str.split()` / `str.strip()`,
restricted to the ASCII range: space, tab, newline, carriage return,
vertical tab, form feed. -/
def isPySpace (c : Char) : Bool :=
  c = ' ' || c = '\t' || c = '\n' || c = '\r' || c = '\x0b' || c = '\x0c'

/-- Negation of `isPySpace`, the predicate that keeps word characters. -/
def notSpace (c : Char) : Bool := !isPySpace c

/-- Python `text.lower()` (ASCII model): lower-case every character. -/
def pyLower (l : List Char) : List Char := l.map Char.toLower

/-- Python `text.strip()`: drop whitespace from both ends. -/
def pyStrip (l : List Char) : List Char :=
  ((l.dropWhile isPySpace).reverse.dropWhile isPySpace).reverse

/-- Python `text.split()` with no separator: split on runs of whitespace,
dropping empty pieces, so the result is the list of whitespace-free words.
Structural recursion on the tail; a whitespace-free character either starts
a fresh word (next character is whitespace or absent) or is prepended to
the word started by the next character. -/
def splitWS : List Char → List (List Char)
  | [] => []
  | c :: cs =>
    let rest := splitWS cs
    if isPySpace c then rest
    else
      match cs with
      | [] => [[c]]
      | d :: _ =>
        if isPySpace d then [c] :: rest
        else
          match rest with
          | [] => [[c]]
          | w :: ws => (c :: w) :: ws

/-- Python `' '.join(words)`: concatenate the words with a single space
between consecutive words. -/
def joinSpace : List (List Char) → List Char
  | [] => []
  | [w] => w
  | w :: v :: ws => w ++ ' ' :: joinSpace (v :: ws)

/-- `HealthChatbot.clean_text`: `' '.join(text.lower().strip().split())`. -/
def clean_text (text : List Char) : List Char :=
  joinSpace (splitWS (pyStrip (pyLower text)))

/-- Python's substring test `needle in hay` on strings. -/
def substring_in (needle hay : List Char) : Bool :=
  decide (needle <:+: hay)

/-- `HealthChatbot.check_keywords`: clean the user message, then scan the
keyword list in order and report whether some cleaned keyword occurs as a
contiguous substring of the cleaned message (the source loop returns `True`
at the first hit and `False` after an exhausted scan, i.e. `List.any`). -/
def check_keywords (user_message : List Char) (keywords : List (List Char)) : Bool :=
  let msg := clean_text user_message
  keywords.any fun keyword => substring_in (clean_text keyword) msg

/-- One intent record as consumed by `get_response`.  The source reads the
fields with `intent.get('keywords', [])` and `intent.get('response', '')`,
so each field is optional; `none` models an absent dictionary key. -/
structure Intent where
  keywords : Option (List (List Char))
  response : Option (List Char)

/-- `intent.get('keywords', [])`. -/
def Intent.getKeywords (i : Intent) : List (List Char) := i.keywords.getD []

/-- `intent.get('response', '')`. -/
def Intent.getResponse (i : Intent) : List Char := i.response.getD []

/-- The fixed fall-back text returned by `get_response` when no intent
matches, verbatim from the source (`\x27` is the apostrophe). -/
def DEFAULT_RESPONSE : List Char :=
  ("I\x27m not sure about that specific topic. I can help you with:\n\n<strong>Common Health Topics:</strong>\n• Fever, Cold, Flu, Headache\n• Diabetes, Blood Pressure, Heart Disease\n• Burns, Cuts, Wounds, Sprains\n• CPR, Choking, First Aid\n• Asthma, Allergies, COVID-19\n• Nutrition, Exercise, Sleep\n• Mental Health, Stress, Anxiety\n• Pregnancy, Women\x27s Health\n• Child Health, Vaccinations\n\nPlease ask about any of these topics, and I\x27ll provide detailed information! 😊\n\n<em>💡 Tip: Try to be specific, like \"What are fever symptoms?\" or \"How to treat burns?\"</em>").data

/-- `HealthChatbot.get_response`: clean the user message, scan the intents
in order, and return the first matching intent's response with confidence
`0.95`, or the default response with confidence `0.3` when no intent
matches (the source loop returning at the first hit is `List.find?`). -/
def get_response (intents : List Intent) (user_message : List Char) :
    List Char × ℚ :=
  let msg := clean_text user_message
  match intents.find? (fun intent => check_keywords msg intent.getKeywords) with
  | some intent => (intent.getResponse, 0.95)
  | none => (DEFAULT_RESPONSE, 0.3)

/-- JSON values, as produced by `json.load`. -/
inductive Json where
  | null
  | bool (b : Bool)
  | num (n : Int)
  | str (s : List Char)
  | arr (elems : List Json)
  | obj (fields : List (List Char × Json))

/-- Python `d.get(key, default)` on a dictionary modelled as a field list. -/
def dictGet (fields : List (List Char × Json)) (key : List Char) (dflt : Json) : Json :=
  match fields.find? (fun f => decide (f.1 = key)) with
  | some f => f.2
  | none => dflt

/-- Exceptions that can escape `load_intents`, plus those it catches. -/
inductive PyExc where
  | osError          -- open/read fails for a reason other than a missing file
  | attributeError   -- `.get` called on a value that is not a dict
deriving DecidableEq

/-- What the external intents source looks like to `load_intents`:
`open` raises `FileNotFoundError` (`missing`), `open`/`read` raises some
other `OSError` (`unreadable`), `json.load` raises `JSONDecodeError`
(`undecodable`), or `json.load` succeeds with a JSON value (`decoded`). -/
inductive Source where
  | missing
  | unreadable
  | undecodable
  | decoded (value : Json)

/-- The top-level collection key `'intents'`. -/
def intentsKey : List Char := "intents".data

/-- `HealthChatbot.load_intents`: the value stored into `self.intents`, or
the exception escaping to the caller.  The source catches exactly
`FileNotFoundError` and `json.JSONDecodeError` (storing `[]`); any other
`OSError` propagates, and `data.get('intents', [])` on a decoded value
that is not a dict raises an uncaught `AttributeError`. -/
def load_intents : Source → Except PyExc Json
  | .missing => .ok (.arr [])
  | .unreadable => .error .osError
  | .undecodable => .ok (.arr [])
  | .decoded (.obj fields) => .ok (dictGet fields intentsKey (.arr []))
  | .decoded _ => .error .attributeError

/-- The engine state: the configured source path and the loaded intents
(`self.intents_file` and `self.intents`). -/
structure HealthChatbot where
  intents_file : List Char
  intents : List Intent

/-- `HealthChatbot.get_response` as a state transformer: the method body
reads `self.intents` and assigns only the local variable `user_message`,
never a field of `self`, so the post-state is the unchanged receiver. -/
def HealthChatbot.get_response_st (bot : HealthChatbot) (user_message : List Char) :
    HealthChatbot × (List Char × ℚ) :=
  (bot, get_response bot.intents user_message)

/-! ## Structural lemmas about the text pipeline -/

@[simp] theorem splitWS_nil : splitWS [] = [] := rfl

theorem splitWS_cons_space {c : Char} (cs : List Char) (h : isPySpace c = true) :
    splitWS (c :: cs) = splitWS cs := by
  simp [splitWS, h]

theorem splitWS_cons_word {c : Char} (cs : List Char) (h : isPySpace c = false) :
    splitWS (c :: cs) = (c :: cs.takeWhile notSpace) :: splitWS (cs.dropWhile notSpace) := by
  induction cs generalizing c with
  | nil => simp [splitWS, h]
  | cons d ds ih =>
    by_cases hd : isPySpace d = true
    · conv_lhs => rw [splitWS]
      simp [h, hd, notSpace, List.takeWhile_cons, List.dropWhile_cons]
    · have hd' : isPySpace d = false := by
        cases hdd : isPySpace d
        · rfl
        · exact absurd hdd hd
      conv_lhs => rw [splitWS]
      simp [h, hd', ih hd', notSpace, List.takeWhile_cons, List.dropWhile_cons]

theorem length_dropWhile_le (p : Char → Bool) (l : List Char) :
    (l.dropWhile p).length ≤ l.length := by
  induction l with
  | nil => simp
  | cons a l ih =>
    rw [List.dropWhile_cons]
    split
    · exact le_trans ih (by simp)
    · simp

/-- Induction principle following the word structure of `splitWS`. -/
theorem splitWS_induction (P : List Char → Prop)
    (h0 : P [])
    (h1 : ∀ c cs, isPySpace c = true → P cs → P (c :: cs))
    (h2 : ∀ c cs, isPySpace c = false → P (cs.dropWhile notSpace) → P (c :: cs)) :
    ∀ l, P l := by
  have main : ∀ n l, List.length l ≤ n → P l := by
    intro n
    induction n with
    | zero =>
      intro l hl
      have : l = [] := by
        cases l
        · rfl
        · simp at hl
      exact this ▸ h0
    | succ n ih =>
      intro l hl
      cases l with
      | nil => exact h0
      | cons c cs =>
        simp only [List.length_cons, Nat.succ_le_succ_iff] at hl
        cases hc : isPySpace c
        · exact h2 c cs hc (ih _ (le_trans (length_dropWhile_le _ _) hl))
        · exact h1 c cs hc (ih cs hl)
  intro l
  exact main l.length l le_rfl

theorem mem_of_mem_takeWhile {p : Char → Bool} {l : List Char} {x : Char}
    (h : x ∈ l.takeWhile p) : x ∈ l := by
  rw [← List.takeWhile_append_dropWhile p l]
  exact List.mem_append_left _ h

theorem mem_of_mem_dropWhile {p : Char → Bool} {l : List Char} {x : Char}
    (h : x ∈ l.dropWhile p) : x ∈ l := by
  rw [← List.takeWhile_append_dropWhile p l]
  exact List.mem_append_right _ h

theorem mem_of_mem_splitWS :
    ∀ l : List Char, ∀ w ∈ splitWS l, ∀ c ∈ w, c ∈ l := by
  apply splitWS_induction (fun l => ∀ w ∈ splitWS l, ∀ c ∈ w, c ∈ l)
  · simp
  · intro c cs hc ih w hw x hx
    rw [splitWS_cons_space cs hc] at hw
    exact List.mem_cons_of_mem c (ih w hw x hx)
  · intro c cs hc ih w hw x hx
    rw [splitWS_cons_word cs hc] at hw
    rcases List.mem_cons.mp hw with hw | hw
    · subst hw
      rcases List.mem_cons.mp hx with hx | hx
      · exact hx ▸ List.mem_cons_self c cs
      · exact List.mem_cons_of_mem c (mem_of_mem_takeWhile hx)
    · exact List.mem_cons_of_mem c (mem_of_mem_dropWhile (ih w hw x hx))

theorem splitWS_words :
    ∀ l : List Char, ∀ w ∈ splitWS l, w ≠ [] ∧ ∀ c ∈ w, isPySpace c = false := by
  apply splitWS_induction (fun l => ∀ w ∈ splitWS l, w ≠ [] ∧ ∀ c ∈ w, isPySpace c = false)
  · simp
  · intro c cs hc ih w hw
    rw [splitWS_cons_space cs hc] at hw
    exact ih w hw
  · intro c cs hc ih w hw
    rw [splitWS_cons_word cs hc] at hw
    rcases List.mem_cons.mp hw with hw | hw
    · subst hw
      refine ⟨by simp, ?_⟩
      intro x hx
      rcases List.mem_cons.mp hx with hx | hx
      · exact hx ▸ hc
      · have := List.mem_takeWhile_imp hx
        simpa [notSpace] using this
    · exact ih w hw

theorem splitWS_all_space {l : List Char} (h : ∀ c ∈ l, isPySpace c = true) :
    splitWS l = [] := by
  induction l with
  | nil => rfl
  | cons c cs ih =>
    rw [splitWS_cons_space cs (h c (List.mem_cons_self c cs))]
    exact ih fun x hx => h x (List.mem_cons_of_mem c hx)

theorem splitWS_dropWhile_space (l : List Char) :
    splitWS (l.dropWhile isPySpace) = splitWS l := by
  induction l with
  | nil => rfl
  | cons c cs ih =>
    rw [List.dropWhile_cons]
    split
    · next h => rw [ih, splitWS_cons_space cs h]
    · rfl

theorem splitWS_append_space :
    ∀ l t : List Char, (∀ c ∈ t, isPySpace c = true) → splitWS (l ++ t) = splitWS l := by
  intro l
  induction l using splitWS_induction with
  | h0 =>
    intro t ht
    simpa using splitWS_all_space ht
  | h1 c cs hc ih =>
    intro t ht
    rw [List.cons_append, splitWS_cons_space _ hc, splitWS_cons_space cs hc]
    exact ih t ht
  | h2 c cs hc ih =>
    intro t ht
    rw [List.cons_append, splitWS_cons_word _ hc, splitWS_cons_word cs hc]
    by_cases hall : ∀ x ∈ cs, notSpace x = true
    · have htake : cs.takeWhile notSpace = cs := List.takeWhile_eq_self_iff.mpr hall
      have hdrop : cs.dropWhile notSpace = [] := List.dropWhile_eq_nil_iff.mpr hall
      have htake2 : (cs ++ t).takeWhile notSpace = cs := by
        rw [List.takeWhile_append, if_pos (by rw [htake])]
        have : t.takeWhile notSpace = [] := by
          cases t with
          | nil => rfl
          | cons a t =>
            rw [List.takeWhile_cons, if_neg]
            simp [notSpace, ht a (List.mem_cons_self a t)]
        rw [this, List.append_nil]
      have hdrop2 : (cs ++ t).dropWhile notSpace = t := by
        rw [List.dropWhile_append, if_pos (by simp [hdrop])]
        cases t with
        | nil => rfl
        | cons a t =>
          rw [List.dropWhile_cons, if_neg]
          simp [notSpace, ht a (List.mem_cons_self a t)]
      rw [htake, htake2, hdrop, hdrop2, splitWS_all_space ht, splitWS_nil]
    · have hdne : cs.dropWhile notSpace ≠ [] := fun h => hall (List.dropWhile_eq_nil_iff.mp h)
      have htake2 : (cs ++ t).takeWhile notSpace = cs.takeWhile notSpace := by
        rw [List.takeWhile_append, if_neg]
        intro hlen
        exact hall (List.takeWhile_eq_self_iff.mp
          ((List.takeWhile_prefix notSpace).eq_of_length hlen))
      have hdrop2 : (cs ++ t).dropWhile notSpace = cs.dropWhile notSpace ++ t := by
        rw [List.dropWhile_append, if_neg (by simpa using hdne)]
      rw [htake2, hdrop2, ih t ht]

theorem splitWS_pyStrip (l : List Char) : splitWS (pyStrip l) = splitWS l := by
  unfold pyStrip
  set m := l.dropWhile isPySpace with hm
  have hdecomp : m = (m.reverse.dropWhile isPySpace).reverse ++ (m.reverse.takeWhile isPySpace).reverse := by
    rw [← List.reverse_append, List.takeWhile_append_dropWhile, List.reverse_reverse]
  have hsp : ∀ c ∈ (m.reverse.takeWhile isPySpace).reverse, isPySpace c = true := by
    intro c hc
    exact List.mem_takeWhile_imp (List.mem_reverse.mp hc)
  calc splitWS (m.reverse.dropWhile isPySpace).reverse
      = splitWS ((m.reverse.dropWhile isPySpace).reverse ++ (m.reverse.takeWhile isPySpace).reverse) :=
        (splitWS_append_space _ _ hsp).symm
    _ = splitWS m := by rw [← hdecomp]
    _ = splitWS l := by rw [hm, splitWS_dropWhile_space]

/-- `clean_text` in collapse normal form: `strip` is subsumed by `split`. -/
theorem clean_text_eq (l : List Char) :
    clean_text l = joinSpace (splitWS (pyLower l)) := by
  unfold clean_text
  rw [splitWS_pyStrip]

/-! ## `joinSpace` lemmas -/

theorem mem_joinSpace :
    ∀ ws : List (List Char), ∀ c ∈ joinSpace ws, c = ' ' ∨ ∃ w ∈ ws, c ∈ w := by
  intro ws
  induction ws with
  | nil => simp [joinSpace]
  | cons w vs ih =>
    cases vs with
    | nil =>
      intro c hc
      exact Or.inr ⟨w, List.mem_cons_self w [], by simpa [joinSpace] using hc⟩
    | cons v vs =>
      intro c hc
      rw [show joinSpace (w :: v :: vs) = w ++ ' ' :: joinSpace (v :: vs) from rfl] at hc
      rcases List.mem_append.mp hc with hc | hc
      · exact Or.inr ⟨w, List.mem_cons_self w _, hc⟩
      · rcases List.mem_cons.mp hc with hc | hc
        · exact Or.inl hc
        · rcases ih c hc with hc | ⟨u, hu, hcu⟩
          · exact Or.inl hc
          · exact Or.inr ⟨u, List.mem_cons_of_mem w hu, hcu⟩

theorem splitWS_word_append {c : Char} {cs rest : List Char}
    (hw : ∀ x ∈ c :: cs, isPySpace x = false)
    (hrest : rest = [] ∨ ∃ r, rest = ' ' :: r) :
    splitWS ((c :: cs) ++ rest) = (c :: cs) :: splitWS rest := by
  have hc : isPySpace c = false := hw c (List.mem_cons_self c cs)
  have hcs : ∀ x ∈ cs, notSpace x = true := by
    intro x hx
    simp [notSpace, hw x (List.mem_cons_of_mem c hx)]
  have htakerest : rest.takeWhile notSpace = [] := by
    rcases hrest with h | ⟨r, h⟩ <;> subst h
    · rfl
    · rw [List.takeWhile_cons, if_neg (by simp [notSpace, isPySpace])]
  have hdroprest : rest.dropWhile notSpace = rest := by
    rcases hrest with h | ⟨r, h⟩ <;> subst h
    · rfl
    · rw [List.dropWhile_cons, if_neg (by simp [notSpace, isPySpace])]
  rw [List.cons_append, splitWS_cons_word _ hc]
  congr 1
  · congr 1
    rw [List.takeWhile_append, if_pos (by rw [List.takeWhile_eq_self_iff.mpr hcs]), htakerest,
      List.append_nil]
  · rw [List.dropWhile_append, if_pos (by simp [List.dropWhile_eq_nil_iff.mpr hcs]), hdroprest]

theorem splitWS_joinSpace :
    ∀ ws : List (List Char),
      (∀ w ∈ ws, w ≠ [] ∧ ∀ c ∈ w, isPySpace c = false) →
      splitWS (joinSpace ws) = ws := by
  intro ws
  induction ws with
  | nil => simp [joinSpace]
  | cons w vs ih =>
    intro hws
    obtain ⟨hne, hsp⟩ := hws w (List.mem_cons_self w vs)
    obtain ⟨c, cs, rfl⟩ : ∃ c cs, w = c :: cs := by
      cases w with
      | nil => exact absurd rfl hne
      | cons c cs => exact ⟨c, cs, rfl⟩
    cases vs with
    | nil =>
      rw [show joinSpace [c :: cs] = (c :: cs) ++ [] from by simp [joinSpace]]
      rw [splitWS_word_append hsp (Or.inl rfl)]
      rfl
    | cons v vs =>
      rw [show joinSpace ((c :: cs) :: v :: vs) = (c :: cs) ++ ' ' :: joinSpace (v :: vs) from rfl]
      rw [splitWS_word_append hsp (Or.inr ⟨_, rfl⟩)]
      rw [splitWS_cons_space _ (by simp [isPySpace])]
      rw [ih fun u hu => hws u (List.mem_cons_of_mem _ hu)]

/-! ## `Char.toLower` lemmas -/

theorem toLower_ofNat_shift {n : ℕ} (h1 : 65 ≤ n) (h2 : n ≤ 90) :
    (Char.ofNat (n + 32)).toLower = Char.ofNat (n + 32) := by
  interval_cases n <;> decide

theorem toLower_toLower (c : Char) : c.toLower.toLower = c.toLower := by
  by_cases h : c.toNat ≥ 65 ∧ c.toNat ≤ 90
  · have h2 : c.toLower = Char.ofNat (c.toNat + 32) := by
      simp [Char.toLower, h]
    rw [h2]
    exact toLower_ofNat_shift h.1 h.2
  · have h2 : c.toLower = c := by
      simp [Char.toLower, h]
    rw [h2, h2]

theorem pyLower_clean_text (l : List Char) :
    pyLower (clean_text l) = clean_text l := by
  rw [clean_text_eq]
  have hfix : ∀ c ∈ joinSpace (splitWS (pyLower l)), Char.toLower c = c := by
    intro c hc
    rcases mem_joinSpace _ c hc with hc | ⟨w, hw, hcw⟩
    · subst hc
      decide
    · have hcl : c ∈ pyLower l := mem_of_mem_splitWS _ w hw c hcw
      obtain ⟨a, _, rfl⟩ := List.mem_map.mp hcl
      exact toLower_toLower a
  calc pyLower (joinSpace (splitWS (pyLower l)))
      = (joinSpace (splitWS (pyLower l))).map id := List.map_congr_left hfix
    _ = joinSpace (splitWS (pyLower l)) := List.map_id _

/-- Idempotence of `clean_text` (core lemma). -/
theorem clean_text_idem_core (l : List Char) :
    clean_text (clean_text l) = clean_text l := by
  conv_lhs => rw [clean_text_eq (clean_text l), pyLower_clean_text]
  conv_lhs => rw [clean_text_eq l]
  rw [splitWS_joinSpace _ (splitWS_words (pyLower l))]
  exact (clean_text_eq l).symm

/-! ## Matching lemmas -/

theorem check_keywords_iff (msg : List Char) (kws : List (List Char)) :
    check_keywords msg kws = true ↔ ∃ k ∈ kws, clean_text k <:+: clean_text msg := by
  simp [check_keywords, substring_in, List.any_eq_true]

theorem entry_match_iff (msg : List Char) (i : Intent) :
    check_keywords (clean_text msg) i.getKeywords = true ↔
      ∃ k ∈ i.getKeywords, clean_text k <:+: clean_text msg := by
  rw [check_keywords_iff, clean_text_idem_core]

theorem get_response_default_core (intents : List Intent) (msg : List Char)
    (h : ∀ i ∈ intents, ∀ k ∈ i.getKeywords, ¬ clean_text k <:+: clean_text msg) :
    get_response intents msg = (DEFAULT_RESPONSE, 0.3) := by
  have hfind : intents.find? (fun i => check_keywords (clean_text msg) i.getKeywords) = none := by
    rw [List.find?_eq_none]
    intro i hi
    rw [entry_match_iff]
    rintro ⟨k, hk, hsub⟩
    exact h i hi k hk hsub
  show (match intents.find? (fun i => check_keywords (clean_text msg) i.getKeywords) with
    | some i => (i.getResponse, (0.95 : ℚ))
    | none => (DEFAULT_RESPONSE, (0.3 : ℚ))) = (DEFAULT_RESPONSE, (0.3 : ℚ))
  rw [hfind]

theorem get_response_first_core (pre post : List Intent) (e : Intent) (msg : List Char)
    (hpre : ∀ i ∈ pre, ∀ k ∈ i.getKeywords, ¬ clean_text k <:+: clean_text msg)
    (he : ∃ k ∈ e.getKeywords, clean_text k <:+: clean_text msg) :
    get_response (pre ++ e :: post) msg = (e.getResponse, 0.95) := by
  have hfind_pre : pre.find? (fun i => check_keywords (clean_text msg) i.getKeywords) = none := by
    rw [List.find?_eq_none]
    intro i hi
    rw [entry_match_iff]
    rintro ⟨k, hk, hsub⟩
    exact hpre i hi k hk hsub
  have hfe : check_keywords (clean_text msg) e.getKeywords = true := (entry_match_iff msg e).mpr he
  show (match (pre ++ e :: post).find? (fun i => check_keywords (clean_text msg) i.getKeywords) with
    | some i => (i.getResponse, (0.95 : ℚ))
    | none => (DEFAULT_RESPONSE, (0.3 : ℚ))) = (e.getResponse, (0.95 : ℚ))
  rw [List.find?_append, hfind_pre, Option.none_or, List.find?_cons, hfe]

/-! ## Shape of `joinSpace` output (for the collapse properties) -/

theorem head?_joinSpace_not_space :
    ∀ ws : List (List Char),
      (∀ w ∈ ws, w ≠ [] ∧ ∀ c ∈ w, isPySpace c = false) →
      ∀ c, (joinSpace ws).head? = some c → isPySpace c = false := by
  intro ws
  induction ws with
  | nil => intro _ c hc; simp [joinSpace] at hc
  | cons w vs ih =>
    intro hws c hc
    obtain ⟨hne, hsp⟩ := hws w (List.mem_cons_self w vs)
    cases vs with
    | nil =>
      exact hsp c (List.mem_of_mem_head? (by simpa [joinSpace] using hc))
    | cons v vs =>
      rw [show joinSpace (w :: v :: vs) = w ++ ' ' :: joinSpace (v :: vs) from rfl,
        List.head?_append] at hc
      cases hw : w.head? with
      | none => exact absurd (List.head?_eq_none_iff.mp hw) hne
      | some d =>
        rw [hw] at hc
        have hc2 : d = c := Option.some.inj hc
        exact hc2 ▸ hsp d (List.mem_of_mem_head? (by simp [hw]))

theorem getLast?_joinSpace_not_space :
    ∀ ws : List (List Char),
      (∀ w ∈ ws, w ≠ [] ∧ ∀ c ∈ w, isPySpace c = false) →
      ∀ c, (joinSpace ws).getLast? = some c → isPySpace c = false := by
  intro ws
  induction ws with
  | nil => intro _ c hc; simp [joinSpace] at hc
  | cons w vs ih =>
    intro hws c hc
    obtain ⟨hne, hsp⟩ := hws w (List.mem_cons_self w vs)
    cases vs with
    | nil =>
      exact hsp c (List.mem_of_mem_getLast? (by simpa [joinSpace] using hc))
    | cons v vs =>
      rw [show joinSpace (w :: v :: vs) = w ++ ' ' :: joinSpace (v :: vs) from rfl,
        List.getLast?_append] at hc
      have hvne : joinSpace (v :: vs) ≠ [] := by
        obtain ⟨hvne, _⟩ := hws v (List.mem_cons_of_mem w (List.mem_cons_self v vs))
        cases vs with
        | nil => simpa [joinSpace] using hvne
        | cons u us =>
          rw [show joinSpace (v :: u :: us) = v ++ ' ' :: joinSpace (u :: us) from rfl]
          simp
      have hlast : (' ' :: joinSpace (v :: vs)).getLast? = (joinSpace (v :: vs)).getLast? := by
        cases hJ : joinSpace (v :: vs) with
        | nil => exact absurd hJ hvne
        | cons j js => rw [List.getLast?_cons_cons]
      rw [hlast] at hc
      cases hJ2 : (joinSpace (v :: vs)).getLast? with
      | none =>
        rw [hJ2] at hc
        have hc2 : w.getLast? = some c := hc
        exact hsp c (List.mem_of_mem_getLast? hc2)
      | some d =>
        rw [hJ2] at hc
        have hc2 : d = c := Option.some.inj hc
        exact hc2 ▸ ih (fun u hu => hws u (List.mem_cons_of_mem w hu)) d hJ2

theorem chain_of_nonspace {w : List Char} (h : ∀ c ∈ w, isPySpace c = false) :
    List.Chain' (fun a b => ¬(isPySpace a = true ∧ isPySpace b = true)) w := by
  induction w with
  | nil => exact List.chain'_nil
  | cons a t ih =>
    rw [List.chain'_cons']
    refine ⟨?_, ih fun c hc => h c (List.mem_cons_of_mem a hc)⟩
    intro y _
    rintro ⟨ha, _⟩
    rw [h a (List.mem_cons_self a t)] at ha
    exact Bool.false_ne_true ha

theorem chain_joinSpace :
    ∀ ws : List (List Char),
      (∀ w ∈ ws, w ≠ [] ∧ ∀ c ∈ w, isPySpace c = false) →
      List.Chain' (fun a b => ¬(isPySpace a = true ∧ isPySpace b = true)) (joinSpace ws) := by
  intro ws
  induction ws with
  | nil => intro _; exact List.chain'_nil
  | cons w vs ih =>
    intro hws
    obtain ⟨hne, hsp⟩ := hws w (List.mem_cons_self w vs)
    cases vs with
    | nil => exact chain_of_nonspace hsp
    | cons v vs =>
      rw [show joinSpace (w :: v :: vs) = w ++ ' ' :: joinSpace (v :: vs) from rfl]
      rw [List.chain'_append]
      have hrest := fun u hu => hws u (List.mem_cons_of_mem w hu)
      refine ⟨chain_of_nonspace hsp, ?_, ?_⟩
      · rw [List.chain'_cons']
        refine ⟨?_, ih hrest⟩
        intro y hy
        rintro ⟨_, hyy⟩
        rw [head?_joinSpace_not_space (v :: vs) hrest y hy] at hyy
        exact Bool.false_ne_true hyy
      · intro x hx y _
        rintro ⟨hxx, _⟩
        rw [hsp x (List.mem_of_mem_getLast? hx)] at hxx
        exact Bool.false_ne_true hxx

theorem get_response_cons_nomatch (i : Intent) (rest : List Intent) (msg : List Char)
    (h : check_keywords (clean_text msg) i.getKeywords = false) :
    get_response (i :: rest) msg = get_response rest msg := by
  show (match (i :: rest).find? (fun j => check_keywords (clean_text msg) j.getKeywords) with
    | some j => (j.getResponse, (0.95 : ℚ))
    | none => (DEFAULT_RESPONSE, (0.3 : ℚ)))
    = (match rest.find? (fun j => check_keywords (clean_text msg) j.getKeywords) with
    | some j => (j.getResponse, (0.95 : ℚ))
    | none => (DEFAULT_RESPONSE, (0.3 : ℚ)))
  rw [List.find?_cons, h]

/-! ## Claim theorems -/

/-- C1: for every knowledge base and message, if some entry has a keyword
whose normalization occurs as a contiguous substring of the normalized
message, then `get_response` returns the response of the earliest such
entry paired with confidence 0.95; entries before it (none of which match)
are skipped and entries after it are ignored, so when two entries both
match, the earlier one wins. -/
theorem get_response_first_match_wins (pre post : List Intent) (e : Intent) (msg : List Char)
    (hpre : ∀ i ∈ pre, ∀ k ∈ i.getKeywords, ¬ clean_text k <:+: clean_text msg)
    (he : ∃ k ∈ e.getKeywords, clean_text k <:+: clean_text msg) :
    get_response (pre ++ e :: post) msg = (e.getResponse, 0.95) :=
  get_response_first_core pre post e msg hpre he

/-- Witness for C1 on the spec scenario knowledge base: a message matching
both entries gets the earlier response, and a message matching only the
second entry gets the second response. -/
theorem get_response_first_match_wins_witness :
    get_response
      [⟨some ["fever".data, "high temperature".data], some "Fever care: rest and fluids.".data⟩,
       ⟨some ["burn".data], some "Burn care: cool water, no ice.".data⟩]
      "I have a fever and a burn".data
      = ("Fever care: rest and fluids.".data, 0.95) ∧
    get_response
      [⟨some ["fever".data, "high temperature".data], some "Fever care: rest and fluids.".data⟩,
       ⟨some ["burn".data], some "Burn care: cool water, no ice.".data⟩]
      "How to treat a burn?".data
      = ("Burn care: cool water, no ice.".data, 0.95) :=
  ⟨get_response_first_match_wins []
      [⟨some ["burn".data], some "Burn care: cool water, no ice.".data⟩]
      ⟨some ["fever".data, "high temperature".data], some "Fever care: rest and fluids.".data⟩
      "I have a fever and a burn".data (by simp) (by decide),
   get_response_first_match_wins
      [⟨some ["fever".data, "high temperature".data], some "Fever care: rest and fluids.".data⟩]
      []
      ⟨some ["burn".data], some "Burn care: cool water, no ice.".data⟩
      "How to treat a burn?".data (by decide) (by decide)⟩

/-- C2: for every message such that no entry has a keyword whose
normalization occurs as a substring of the normalized message (including
the empty knowledge base), `get_response` returns exactly the fixed
default response string paired with confidence exactly 0.3. -/
theorem get_response_no_match_default (intents : List Intent) (msg : List Char)
    (h : ∀ i ∈ intents, ∀ k ∈ i.getKeywords, ¬ clean_text k <:+: clean_text msg) :
    get_response intents msg = (DEFAULT_RESPONSE, 0.3) :=
  get_response_default_core intents msg h

/-- Witness for C2: the empty knowledge base, and a non-matching message
against the spec scenario knowledge base. -/
theorem get_response_no_match_default_witness :
    get_response [] "anything".data = (DEFAULT_RESPONSE, 0.3) ∧
    get_response [⟨some ["fever".data], some "Fever care: rest and fluids.".data⟩]
      "Tell me about diabetes".data = (DEFAULT_RESPONSE, 0.3) :=
  ⟨get_response_no_match_default [] "anything".data (by simp),
   get_response_no_match_default _ "Tell me about diabetes".data (by decide)⟩

/-- C3 counterexample: a source holding well-formed JSON whose top-level
value is the empty array is read and decoded successfully, yet
`load_intents` raises an uncaught `AttributeError` to the caller (the
Python list returned by `json.load` has no `get` method and the `except`
clauses catch only `FileNotFoundError` and `JSONDecodeError`), so the
intents list is not the empty sequence and the loader does raise. -/
theorem load_intents_raises_on_toplevel_array :
    load_intents (.decoded (.arr [])) = .error .attributeError := rfl

/-- C3 amended: `load_intents` catches exactly a missing source and a JSON
decode failure, converting both into the empty intents list; a read
failure other than a missing file escapes as an `OSError`, a decoded
top-level dict stores its `intents` value (defaulting to the empty list),
and any decoded non-dict top-level value escapes as an `AttributeError`. -/
theorem load_intents_error_behavior :
    load_intents .missing = .ok (.arr []) ∧
    load_intents .undecodable = .ok (.arr []) ∧
    load_intents .unreadable = .error .osError ∧
    (∀ fields, load_intents (.decoded (.obj fields)) = .ok (dictGet fields intentsKey (.arr []))) ∧
    (∀ elems, load_intents (.decoded (.arr elems)) = .error .attributeError) ∧
    (∀ s, load_intents (.decoded (.str s)) = .error .attributeError) ∧
    load_intents (.decoded .null) = .error .attributeError ∧
    (∀ b, load_intents (.decoded (.bool b)) = .error .attributeError) ∧
    (∀ n, load_intents (.decoded (.num n)) = .error .attributeError) :=
  ⟨rfl, rfl, rfl, fun _ => rfl, fun _ => rfl, fun _ => rfl, rfl, fun _ => rfl, fun _ => rfl⟩

/-- C4: loading from a missing source stores the empty knowledge base;
loading from a malformed (unparseable) source behaves identically to a
missing source; and with an empty knowledge base `get_response` returns
the default response with confidence 0.3 for every input message. -/
theorem engine_from_missing_or_malformed_source :
    load_intents .missing = .ok (.arr []) ∧
    load_intents .undecodable = load_intents .missing ∧
    (∀ msg : List Char, get_response [] msg = (DEFAULT_RESPONSE, 0.3)) :=
  ⟨rfl, rfl, fun _ => rfl⟩

/-- C5: `check_keywords` returns true iff some keyword in the list, after
normalization, occurs as a contiguous substring of the normalized message;
it returns false on the empty keyword list; and matching is plain
substring containment, not word-boundary matching, so the keyword cut
matches a message containing scuttle. -/
theorem check_keywords_substring_spec (message : List Char) (keywords : List (List Char)) :
    (check_keywords message keywords = true ↔
      ∃ k ∈ keywords, clean_text k <:+: clean_text message) ∧
    check_keywords message [] = false ∧
    check_keywords "a scuttle story".data ["cut".data] = true :=
  ⟨check_keywords_iff message keywords, rfl, by decide⟩

/-- Witness for C5: the scuttle example and the empty keyword list at
concrete inputs. -/
theorem check_keywords_substring_spec_witness :
    check_keywords "a scuttle story".data ["cut".data] = true ∧
    check_keywords "hello".data [] = false :=
  ⟨(check_keywords_substring_spec "a scuttle story".data ["cut".data]).2.2,
   (check_keywords_substring_spec "hello".data []).2.1⟩

/-- C6: `clean_text` is idempotent. -/
theorem clean_text_idempotent (x : List Char) :
    clean_text (clean_text x) = clean_text x :=
  clean_text_idem_core x

/-- C7: `clean_text` lower-cases the text (every output character is fixed
by `Char.toLower`), collapses all runs of whitespace into single spaces
(the only whitespace character in the output is a plain space and no two
adjacent output characters are both whitespace), produces no leading or
trailing whitespace, keeps exactly the whitespace-separated tokens of the
lower-cased input, and in particular maps the string
with the raw spacing of the spec example to the same result as the
already-normalized form. -/
theorem clean_text_normalization_spec (x : List Char) :
    (∀ c ∈ clean_text x, Char.toLower c = c) ∧
    (∀ c ∈ clean_text x, isPySpace c = true → c = ' ') ∧
    List.Chain' (fun a b => ¬(isPySpace a = true ∧ isPySpace b = true)) (clean_text x) ∧
    (∀ c, (clean_text x).head? = some c → isPySpace c = false) ∧
    (∀ c, (clean_text x).getLast? = some c → isPySpace c = false) ∧
    splitWS (clean_text x) = splitWS (pyLower x) ∧
    clean_text "  Fever  AND Cold ".data = clean_text "fever and cold".data := by
  have hwords := splitWS_words (pyLower x)
  refine ⟨?_, ?_, ?_, ?_, ?_, ?_, by decide⟩
  · intro c hc
    rw [clean_text_eq] at hc
    rcases mem_joinSpace _ c hc with hc | ⟨w, hw, hcw⟩
    · subst hc; decide
    · obtain ⟨a, _, rfl⟩ := List.mem_map.mp (mem_of_mem_splitWS _ w hw c hcw)
      exact toLower_toLower a
  · intro c hc hcsp
    rw [clean_text_eq] at hc
    rcases mem_joinSpace _ c hc with hc | ⟨w, hw, hcw⟩
    · exact hc
    · rw [(hwords w hw).2 c hcw] at hcsp
      exact absurd hcsp Bool.false_ne_true
  · rw [clean_text_eq]
    exact chain_joinSpace _ hwords
  · rw [clean_text_eq]
    exact head?_joinSpace_not_space _ hwords
  · rw [clean_text_eq]
    exact getLast?_joinSpace_not_space _ hwords
  · rw [clean_text_eq, splitWS_joinSpace _ hwords]

/-- Witness for C7 at the spec example input. -/
theorem clean_text_normalization_spec_witness :
    splitWS (clean_text "  Fever  AND Cold ".data) = splitWS (pyLower "  Fever  AND Cold ".data) ∧
    clean_text "  Fever  AND Cold ".data = clean_text "fever and cold".data :=
  ⟨(clean_text_normalization_spec "  Fever  AND Cold ".data).2.2.2.2.2.1,
   (clean_text_normalization_spec "  Fever  AND Cold ".data).2.2.2.2.2.2⟩

/-- C8: a keyword whose normalization is empty (an empty or
whitespace-only keyword) makes `check_keywords` return true for every
message, since the empty list is a substring of everything; consequently
an entry carrying such a keyword matches every input, and `get_response`
returns the response of that entry with confidence 0.95 for every message
not matched by an earlier entry. -/
theorem empty_keyword_matches_everything (msg k : List Char) (kws : List (List Char))
    (pre post : List Intent) (e : Intent)
    (hk : k ∈ kws) (h0 : clean_text k = [])
    (hke : k ∈ e.getKeywords)
    (hpre : ∀ i ∈ pre, ∀ k2 ∈ i.getKeywords, ¬ clean_text k2 <:+: clean_text msg) :
    check_keywords msg kws = true ∧
    get_response (pre ++ e :: post) msg = (e.getResponse, 0.95) := by
  constructor
  · rw [check_keywords_iff]
    exact ⟨k, hk, by rw [h0]; exact List.nil_infix⟩
  · exact get_response_first_core pre post e msg hpre ⟨k, hke, by rw [h0]; exact List.nil_infix⟩

/-- Witness for C8: a whitespace-only keyword matches even the empty
message, and its entry answers every message. -/
theorem empty_keyword_matches_everything_witness :
    check_keywords "".data ["  ".data] = true ∧
    get_response [⟨some ["  ".data], some "always shown".data⟩] "".data
      = ("always shown".data, 0.95) :=
  empty_keyword_matches_everything "".data "  ".data ["  ".data] [] []
    ⟨some ["  ".data], some "always shown".data⟩
    (by decide) (by decide) (by decide) (by simp)

/-- C9: during matching, an entry without a keywords field is treated as
having the empty keyword list and never matches (the scan continues past
it unchanged); a matched entry without a response field yields the empty
string as its response; and a loaded top-level dict without the intents
key yields the empty knowledge base. -/
theorem missing_fields_degrade_gracefully :
    (∀ (msg : List Char) (rest : List Intent) (r : Option (List Char)),
        get_response (⟨none, r⟩ :: rest) msg = get_response rest msg) ∧
    (∀ (msg : List Char) (pre post : List Intent) (kws : List (List Char)),
        (∀ i ∈ pre, ∀ k ∈ i.getKeywords, ¬ clean_text k <:+: clean_text msg) →
        (∃ k ∈ kws, clean_text k <:+: clean_text msg) →
        get_response (pre ++ ⟨some kws, none⟩ :: post) msg = ([], 0.95)) ∧
    (∀ fields : List (List Char × Json),
        (∀ f ∈ fields, f.1 ≠ intentsKey) →
        load_intents (.decoded (.obj fields)) = .ok (.arr [])) := by
  refine ⟨?_, ?_, ?_⟩
  · intro msg rest r
    exact get_response_cons_nomatch ⟨none, r⟩ rest msg rfl
  · intro msg pre post kws hpre hex
    exact get_response_first_core pre post ⟨some kws, none⟩ msg hpre hex
  · intro fields hf
    have hnone : fields.find? (fun f => decide (f.1 = intentsKey)) = none := by
      rw [List.find?_eq_none]
      intro f hfmem
      simp [hf f hfmem]
    show Except.ok (dictGet fields intentsKey (.arr [])) = Except.ok (.arr [])
    unfold dictGet
    rw [hnone]

/-- Witness for C9 at concrete inputs. -/
theorem missing_fields_degrade_gracefully_witness :
    get_response [⟨none, some "orphan response".data⟩] "fever".data = (DEFAULT_RESPONSE, 0.3) ∧
    get_response [⟨some ["fever".data], none⟩] "I have a fever".data = ([], 0.95) ∧
    load_intents (.decoded (.obj [("version".data, .num 1)])) = .ok (.arr []) :=
  ⟨(missing_fields_degrade_gracefully.1 "fever".data [] (some "orphan response".data)).trans rfl,
   missing_fields_degrade_gracefully.2.1 "I have a fever".data [] [] ["fever".data]
     (by simp) (by decide),
   missing_fields_degrade_gracefully.2.2 [("version".data, Json.num 1)] (by decide)⟩

/-- C10: `get_response` leaves the engine state unchanged: the intents
sequence after the call equals the sequence before the call, and the
returned pair is the pure matching result over that sequence. -/
theorem get_response_preserves_knowledge_base (bot : HealthChatbot) (msg : List Char) :
    (bot.get_response_st msg).1 = bot ∧
    ((bot.get_response_st msg).1).intents = bot.intents ∧
    (bot.get_response_st msg).2 = get_response bot.intents msg :=
  ⟨rfl, rfl, rfl⟩
